import Mathlib

/-!
Verification of the in-process TTL cache (src/backend/app/cache.py) and the
in-memory rate limiter (src/backend/app/rate_limit.py) of the NotBroke
backend.

Modelling conventions:
- The Python dict `_CACHE` is represented as an association list with unique
  keys; dict assignment `_CACHE[key] = v` is replace-or-insert, here realised
  as erase-then-cons (dict iteration order is not observable to any of the
  operations involved).
- The wall clock (`time.time()` / `datetime.utcnow()`) is an explicit `now`
  argument threaded through each call; timestamps are integers (seconds).
  None of the verified properties depend on sub-second resolution.
- The module-level mutable state becomes an explicit state value passed in and
  returned by each operation.
-/

namespace NotBroke

namespace Cache

/-- State of cache.py: the `_CACHE` dict (key -> (expires_at, value)) together
with the `_cache_stats` counters. -/
structure CacheState (α : Type) where
  cache : List (String × (Int × α))
  hits : Nat
  misses : Nat
  sets : Nat
  invalidations : Nat
  deriving Repr

/-- Fresh module state: empty `_CACHE`, zeroed `_cache_stats`. -/
def fresh (α : Type) : CacheState α :=
  ⟨[], 0, 0, 0, 0⟩

/-- `_CACHE.get(key)` on an association list. -/
def lookupEntry {β : Type} (l : List (String × β)) (k : String) : Option β :=
  (l.find? fun e => decide (e.1 = k)).map Prod.snd

/-- `_CACHE.pop(key, None)`: remove the entry with the given key. -/
def eraseKey {β : Type} (l : List (String × β)) (k : String) : List (String × β) :=
  l.filter fun e => decide (e.1 ≠ k)

/-- Dict assignment `_CACHE[key] = v`: replace-or-insert. -/
def storeEntry {β : Type} (l : List (String × β)) (k : String) (v : β) :
    List (String × β) :=
  (k, v) :: eraseKey l k

/-- cache.get (cache.py lines 20-32): look the key up; on absence record a
miss; if expired (`now >= expires_at`) evict, record a miss and return none;
otherwise record a hit and return the value. -/
def get {α : Type} (key : String) (now : Int) (st : CacheState α) :
    Option α × CacheState α :=
  match lookupEntry st.cache key with
  | none => (none, { st with misses := st.misses + 1 })
  | some (expires_at, value) =>
    if expires_at ≤ now then
      (none, { st with cache := eraseKey st.cache key, misses := st.misses + 1 })
    else
      (some value, { st with hits := st.hits + 1 })

/-- cache.set (cache.py lines 35-39): store with `expires_at = now + ttl`,
count a set. -/
def set {α : Type} (key : String) (value : α) (ttl : Int) (now : Int)
    (st : CacheState α) : CacheState α :=
  { st with
    cache := storeEntry st.cache key (now + ttl, value)
    sets := st.sets + 1 }

/-- Python `key.startswith(p)`: p is an initial segment of key, compared on
the underlying character lists. -/
def startsWith (key p : String) : Bool :=
  p.data.isPrefixOf key.data

/-- cache.invalidate (cache.py lines 42-52): with no argument clear everything
and count the prior size; with an argument remove every key starting with it
and count the removed keys. -/
def invalidate {α : Type} (pre : Option String) (st : CacheState α) :
    CacheState α :=
  match pre with
  | none =>
    { st with cache := [], invalidations := st.invalidations + st.cache.length }
  | some p =>
    { st with
      cache := st.cache.filter fun e => !(startsWith e.1 p)
      invalidations :=
        st.invalidations + (st.cache.filter fun e => startsWith e.1 p).length }

/-- The dict returned by cache.get_stats (cache.py lines 55-72). -/
structure StatsSnapshot where
  hits : Nat
  misses : Nat
  sets : Nat
  invalidations : Nat
  hit_rate : ℚ
  total_requests : Nat
  current_size : Nat
  deriving Repr

/-- Python `round(x, 2)` on the exact rational value. -/
def round2 (q : ℚ) : ℚ :=
  (round (q * 100) : ℤ) / 100

/-- cache.get_stats (cache.py lines 55-72). -/
def get_stats {α : Type} (st : CacheState α) : StatsSnapshot :=
  let total := st.hits + st.misses
  let rate : ℚ := if 0 < total then (st.hits : ℚ) / (total : ℚ) * 100 else 0
  ⟨st.hits, st.misses, st.sets, st.invalidations, round2 rate, total,
    st.cache.length⟩

/-- One cache operation of a scripted sequence. -/
inductive CacheOp (α : Type) where
  | get (key : String)
  | set (key : String) (value : α) (ttl : Int)
  | invalidate (pre : Option String)

/-- Apply one operation at a given time. -/
def applyOp {α : Type} (now : Int) (op : CacheOp α) (st : CacheState α) :
    CacheState α :=
  match op with
  | .get k => (get k now st).2
  | .set k v ttl => set k v ttl now st
  | .invalidate p => invalidate p st

/-- Run a time-stamped sequence of operations. -/
def runOps {α : Type} : List (Int × CacheOp α) → CacheState α → CacheState α
  | [], st => st
  | (t, op) :: rest, st => runOps rest (applyOp t op st)

/-- Number of get operations in a script. -/
def countGets {α : Type} : List (Int × CacheOp α) → Nat
  | [] => 0
  | (_, .get _) :: rest => countGets rest + 1
  | _ :: rest => countGets rest

/-- Number of set operations in a script. -/
def countSets {α : Type} : List (Int × CacheOp α) → Nat
  | [] => 0
  | (_, .set _ _ _) :: rest => countSets rest + 1
  | _ :: rest => countSets rest

/-- Number of entries a single invalidate call removes from a given cache. -/
def removedBy {α : Type} (st : CacheState α) : Option String → Nat
  | none => st.cache.length
  | some p => (st.cache.filter fun e => startsWith e.1 p).length

/-- Total number of entries removed by the invalidate calls of a script. -/
def totalRemoved {α : Type} : List (Int × CacheOp α) → CacheState α → Nat
  | [], _ => 0
  | (t, op) :: rest, st =>
    (match op with
     | .invalidate p => removedBy st p
     | _ => 0) + totalRemoved rest (applyOp t op st)

/-- Number of entries of a cache carrying a given key. -/
def countKey {β : Type} (l : List (String × β)) (k : String) : Nat :=
  (l.filter fun e => decide (e.1 = k)).length

end Cache

namespace RateLimit

/-- The `_rate_limit_store` defaultdict: every key maps to a list of
(timestamp, count) tuples, absent keys to the empty list. -/
def Store : Type := String → List (Int × ℤ)

/-- The store at process start (and a defaultdict lookup default). -/
def emptyStore : Store := fun _ => []

/-- Pointwise dict assignment `_rate_limit_store[key] = v`. -/
def updateStore (store : Store) (k : String) (v : List (Int × ℤ)) : Store :=
  fun x => if x = k then v else store x

/-- The lookup key `f"{endpoint}:{client_ip}"`. -/
def rlKey (endpoint ip : String) : String :=
  endpoint ++ ":" ++ ip

/-- rate_limit.py lines 26-30: keep only the entries with
`ts > current_time - 60`. -/
def pruneEntries (now : Int) (l : List (Int × ℤ)) : List (Int × ℤ) :=
  l.filter fun e => decide (now - 60 < e.1)

/-- rate_limit.py line 33: `sum(count for _, count in store[key])`. -/
def sumCounts (l : List (Int × ℤ)) : ℤ :=
  (l.map Prod.snd).sum

/-- check_rate_limit (rate_limit.py lines 11-45). A falsy `client_ip`
(`None` or the empty string) is allowed immediately. Otherwise old entries
are pruned, surviving counts summed; at or above the limit the call is
rejected without recording it; below the limit the last surviving tuple is
overwritten with `(now, count + 1)` (or a fresh `[(now, 1)]` when none
survive) and the call allowed. -/
def check_rate_limit (endpoint : String) (client_ip : Option String)
    (requests_per_minute : ℤ) (now : Int) (store : Store) : Bool × Store :=
  match client_ip with
  | none => (true, store)
  | some ip =>
    if ip = "" then (true, store)
    else
      let key := rlKey endpoint ip
      let pruned := pruneEntries now (store key)
      let request_count := sumCounts pruned
      if requests_per_minute ≤ request_count then
        (false, updateStore store key pruned)
      else
        let newList :=
          if pruned.isEmpty then [(now, (1 : ℤ))]
          else pruned.dropLast ++ [(now, request_count + 1)]
        (true, updateStore store key newList)

/-- Arguments of one check_rate_limit call in a scripted sequence. -/
structure RLCall where
  endpoint : String
  client_ip : Option String
  limit : ℤ
  now : Int

/-- Final store after a sequence of check_rate_limit calls. -/
def runChecks : List RLCall → Store → Store
  | [], store => store
  | c :: rest, store =>
    runChecks rest (check_rate_limit c.endpoint c.client_ip c.limit c.now store).2

/-- The boolean results of a sequence of check_rate_limit calls, in order. -/
def runResults : List RLCall → Store → List Bool
  | [], _ => []
  | c :: rest, store =>
    let r := check_rate_limit c.endpoint c.client_ip c.limit c.now store
    r.1 :: runResults rest r.2

end RateLimit

/-! ### Helper lemmas -/

namespace Cache

theorem lookupEntry_storeEntry_self {β : Type} (l : List (String × β)) (k : String)
    (v : β) : lookupEntry (storeEntry l k v) k = some v := by
  simp [lookupEntry, storeEntry, List.find?]

theorem lookupEntry_filter_of_true {β : Type} (q : String → Bool)
    (l : List (String × β)) (k : String) (h : q k = true) :
    lookupEntry (l.filter fun e => q e.1) k = lookupEntry l k := by
  induction l with
  | nil => rfl
  | cons a l ih =>
    by_cases hak : a.1 = k
    · have hqa : q a.1 = true := by rw [hak]; exact h
      rw [List.filter_cons_of_pos (by simpa using hqa)]
      unfold lookupEntry
      rw [List.find?_cons_of_pos _ (by simpa using hak),
          List.find?_cons_of_pos _ (by simpa using hak)]
    · cases hqa : q a.1 with
      | false =>
        rw [List.filter_cons_of_neg (by simpa using hqa)]
        unfold lookupEntry at ih ⊢
        rw [ih, List.find?_cons_of_neg _ (by simpa using hak)]
      | true =>
        rw [List.filter_cons_of_pos (by simpa using hqa)]
        unfold lookupEntry at ih ⊢
        rw [List.find?_cons_of_neg _ (by simpa using hak),
            List.find?_cons_of_neg _ (by simpa using hak), ih]

theorem lookupEntry_filter_of_false {β : Type} (q : String → Bool)
    (l : List (String × β)) (k : String) (h : q k = false) :
    lookupEntry (l.filter fun e => q e.1) k = none := by
  induction l with
  | nil => rfl
  | cons a l ih =>
    cases hqa : q a.1 with
    | false =>
      rw [List.filter_cons_of_neg (by simpa using hqa)]
      exact ih
    | true =>
      have hak : ¬(a.1 = k) := by
        intro hk
        rw [hk] at hqa
        rw [h] at hqa
        cases hqa
      rw [List.filter_cons_of_pos (by simpa using hqa)]
      unfold lookupEntry at ih ⊢
      rw [List.find?_cons_of_neg _ (by simpa using hak)]
      exact ih

theorem eraseKey_storeEntry {β : Type} (l : List (String × β)) (k : String)
    (v : β) : eraseKey (storeEntry l k v) k = eraseKey l k := by
  simp [eraseKey, storeEntry, List.filter_cons, List.filter_filter]

theorem countKey_filter_le {β : Type} (q : (String × β) → Bool)
    (l : List (String × β)) (k : String) :
    countKey (l.filter q) k ≤ countKey l k := by
  induction l with
  | nil => exact Nat.le_refl 0
  | cons a l ih =>
    unfold countKey at ih ⊢
    cases hqa : q a with
    | false =>
      rw [List.filter_cons_of_neg (by simp [hqa])]
      by_cases hak : a.1 = k
      · rw [List.filter_cons_of_pos (by simpa using hak)]
        simpa using Nat.le_succ_of_le ih
      · rw [List.filter_cons_of_neg (by simpa using hak)]
        exact ih
    | true =>
      rw [List.filter_cons_of_pos (by simp [hqa])]
      by_cases hak : a.1 = k
      · rw [List.filter_cons_of_pos (by simpa using hak),
            List.filter_cons_of_pos (by simpa using hak)]
        simpa using ih
      · rw [List.filter_cons_of_neg (by simpa using hak),
            List.filter_cons_of_neg (by simpa using hak)]
        exact ih

theorem countKey_eraseKey_self {β : Type} (l : List (String × β)) (k : String) :
    countKey (eraseKey l k) k = 0 := by
  induction l with
  | nil => rfl
  | cons a l ih =>
    unfold countKey eraseKey at ih ⊢
    by_cases hak : a.1 = k
    · rw [List.filter_cons_of_neg (by simp [hak])]
      exact ih
    · rw [List.filter_cons_of_pos (by simp [hak]),
          List.filter_cons_of_neg (by simpa using hak)]
      exact ih

theorem lookupEntry_eraseKey_self {β : Type} (l : List (String × β))
    (k : String) : lookupEntry (eraseKey l k) k = none :=
  lookupEntry_filter_of_false (fun s => decide (s ≠ k)) l k (by simp)

theorem get_cache_cases {α : Type} (k : String) (n : Int) (s : CacheState α) :
    (get k n s).2.cache = s.cache ∨ (get k n s).2.cache = eraseKey s.cache k := by
  unfold get
  cases h : lookupEntry s.cache k with
  | none => left; rfl
  | some ev =>
    obtain ⟨e1, v1⟩ := ev
    by_cases he : e1 ≤ n
    · right; simp [he]
    · left; simp [he]

theorem countKey_applyOp_le_one {α : Type} (t : Int) (op : CacheOp α)
    (st : CacheState α) (h : ∀ key, countKey st.cache key ≤ 1) (key : String) :
    countKey (applyOp t op st).cache key ≤ 1 := by
  cases op with
  | get k =>
    rcases get_cache_cases k t st with hc | hc <;> rw [applyOp, hc]
    · exact h key
    · exact le_trans (countKey_filter_le _ _ _) (h key)
  | set k v ttl =>
    show countKey (storeEntry st.cache k (t + ttl, v)) key ≤ 1
    unfold countKey storeEntry
    by_cases hk : k = key
    · rw [List.filter_cons_of_pos (by simpa using hk)]
      have h0 : countKey (eraseKey st.cache k) key = 0 := by
        rw [← hk]; exact countKey_eraseKey_self st.cache k
      unfold countKey at h0
      simp [h0]
    · rw [List.filter_cons_of_neg (by simpa using hk)]
      exact le_trans (countKey_filter_le _ _ _) (h key)
  | invalidate p =>
    cases p with
    | none => simp [applyOp, invalidate, countKey]
    | some p =>
      show countKey (st.cache.filter fun e => !(startsWith e.1 p)) key ≤ 1
      exact le_trans (countKey_filter_le _ _ _) (h key)

theorem countKey_runOps_le_one {α : Type} (ops : List (Int × CacheOp α))
    (st : CacheState α) (h : ∀ key, countKey st.cache key ≤ 1) (key : String) :
    countKey (runOps ops st).cache key ≤ 1 := by
  induction ops generalizing st with
  | nil => exact h key
  | cons c rest ih =>
    obtain ⟨t, op⟩ := c
    exact ih (applyOp t op st) (fun k2 => countKey_applyOp_le_one t op st h k2)

theorem get_counters {α : Type} (k : String) (n : Int) (st : CacheState α) :
    (get k n st).2.hits + (get k n st).2.misses = st.hits + st.misses + 1 ∧
    (get k n st).2.sets = st.sets ∧
    (get k n st).2.invalidations = st.invalidations := by
  unfold get
  cases h : lookupEntry st.cache k with
  | none => refine ⟨by simp; omega, rfl, rfl⟩
  | some ev =>
    obtain ⟨e1, v1⟩ := ev
    by_cases he : e1 ≤ n
    · refine ⟨by simp [he]; omega, by simp [he], by simp [he]⟩
    · refine ⟨by simp [he]; omega, by simp [he], by simp [he]⟩

theorem invalidate_counters {α : Type} (pre : Option String)
    (st : CacheState α) :
    (invalidate pre st).hits = st.hits ∧
    (invalidate pre st).misses = st.misses ∧
    (invalidate pre st).sets = st.sets ∧
    (invalidate pre st).invalidations = st.invalidations + removedBy st pre := by
  cases pre <;> simp [invalidate, removedBy]

theorem runOps_counters {α : Type} (ops : List (Int × CacheOp α))
    (st : CacheState α) :
    (runOps ops st).hits + (runOps ops st).misses
        = st.hits + st.misses + countGets ops ∧
    (runOps ops st).sets = st.sets + countSets ops ∧
    (runOps ops st).invalidations = st.invalidations + totalRemoved ops st := by
  induction ops generalizing st with
  | nil => simp [runOps, countGets, countSets, totalRemoved]
  | cons c rest ih =>
    obtain ⟨t, op⟩ := c
    cases op with
    | get k =>
      obtain ⟨ih1, ih2, ih3⟩ := ih (applyOp t (CacheOp.get k) st)
      obtain ⟨g1, g2, g3⟩ := get_counters k t st
      simp only [runOps, countGets, countSets, totalRemoved, applyOp] at *
      exact ⟨by omega, by omega, by omega⟩
    | set k v ttl =>
      obtain ⟨ih1, ih2, ih3⟩ := ih (applyOp t (CacheOp.set k v ttl) st)
      simp only [runOps, countGets, countSets, totalRemoved, applyOp, set] at *
      exact ⟨by omega, by omega, by omega⟩
    | invalidate p =>
      obtain ⟨ih1, ih2, ih3⟩ := ih (applyOp t (CacheOp.invalidate p) st)
      obtain ⟨i1, i2, i3, i4⟩ := invalidate_counters p st
      simp only [runOps, countGets, countSets, totalRemoved, applyOp] at *
      exact ⟨by omega, by omega, by omega⟩

end Cache

namespace RateLimit

theorem check_preserves_single_entry (e : String) (ipo : Option String)
    (l : ℤ) (now : Int) (store : Store)
    (h : ∀ k, (store k).length ≤ 1) (k : String) :
    ((check_rate_limit e ipo l now store).2 k).length ≤ 1 := by
  match ipo with
  | none => exact h k
  | some ip =>
    by_cases hip : ip = ""
    · simp only [check_rate_limit, hip, if_pos]
      exact h k
    · have hpl : (pruneEntries now (store (rlKey e ip))).length ≤ 1 :=
        le_trans (List.length_filter_le _ _) (h (rlKey e ip))
      by_cases hc : l ≤ sumCounts (pruneEntries now (store (rlKey e ip)))
      · simp only [check_rate_limit, if_neg hip, if_pos hc, updateStore]
        by_cases hk : k = rlKey e ip
        · simpa [hk] using hpl
        · simpa [hk] using h k
      · simp only [check_rate_limit, if_neg hip, if_neg hc, updateStore]
        by_cases hk : k = rlKey e ip
        · by_cases hemp : (pruneEntries now (store (rlKey e ip))).isEmpty
          · simp [hk, hemp]
          · have hne : pruneEntries now (store (rlKey e ip)) ≠ [] := by
              simpa [List.isEmpty_iff] using hemp
            have : (pruneEntries now (store (rlKey e ip))).length ≠ 0 := by
              simpa [List.length_eq_zero] using hne
            simp [hk, hemp, List.length_dropLast]
            omega
        · simpa [hk] using h k

theorem runChecks_single_entry (calls : List RLCall) (store : Store)
    (h : ∀ k, (store k).length ≤ 1) (k : String) :
    ((runChecks calls store) k).length ≤ 1 := by
  induction calls generalizing store with
  | nil => exact h k
  | cons c rest ih =>
    exact ih _ (fun k2 =>
      check_preserves_single_entry c.endpoint c.client_ip c.limit c.now store h k2)

end RateLimit

open Cache RateLimit

/-! ### Claim theorems -/

/-- C7: with an absent (or empty, hence falsy) client identity,
check_rate_limit always returns true and leaves the store untouched, no
matter the endpoint, the limit, the prior state, or how often it is
called. -/
theorem check_rate_limit_fail_open (endpoint : String) (limit : ℤ)
    (now : Int) (store : Store) :
    check_rate_limit endpoint none limit now store = (true, store) ∧
    check_rate_limit endpoint (some "") limit now store = (true, store) ∧
    (∀ n : Nat,
      runResults (List.replicate n ⟨endpoint, none, limit, now⟩) store =
        List.replicate n true) := by
  refine ⟨rfl, rfl, fun n => ?_⟩
  induction n with
  | zero => rfl
  | succ m ih => simpa [runResults, check_rate_limit, List.replicate] using ih

/-- C2: when the pruned window for an (endpoint, client) key already counts at
least the limit, check_rate_limit returns false and stores exactly the pruned
list: the rejected request is not recorded, so the stored count stays at the
counted value. -/
theorem check_rate_limit_reject_leaves_count (endpoint ip : String)
    (limit : ℤ) (now : Int) (store : Store) (hip : ¬(ip = ""))
    (hlim : limit ≤ sumCounts (pruneEntries now (store (rlKey endpoint ip)))) :
    check_rate_limit endpoint (some ip) limit now store =
      (false, updateStore store (rlKey endpoint ip)
        (pruneEntries now (store (rlKey endpoint ip)))) ∧
    sumCounts ((check_rate_limit endpoint (some ip) limit now store).2
        (rlKey endpoint ip)) =
      sumCounts (pruneEntries now (store (rlKey endpoint ip))) := by
  constructor
  · simp [check_rate_limit, hip, hlim]
  · simp [check_rate_limit, hip, hlim, updateStore]

theorem check_rate_limit_reject_leaves_count_witness :
    ¬("c" = "") ∧
    runResults
      [⟨"e", some "c", 5, 0⟩, ⟨"e", some "c", 5, 1⟩, ⟨"e", some "c", 5, 2⟩,
       ⟨"e", some "c", 5, 3⟩, ⟨"e", some "c", 5, 4⟩] emptyStore
      = [true, true, true, true, true] ∧
    (5 : ℤ) ≤ sumCounts (pruneEntries 30 ((runChecks
      [⟨"e", some "c", 5, 0⟩, ⟨"e", some "c", 5, 1⟩, ⟨"e", some "c", 5, 2⟩,
       ⟨"e", some "c", 5, 3⟩, ⟨"e", some "c", 5, 4⟩] emptyStore)
      (rlKey "e" "c"))) ∧
    (check_rate_limit "e" (some "c") 5 30 (runChecks
      [⟨"e", some "c", 5, 0⟩, ⟨"e", some "c", 5, 1⟩, ⟨"e", some "c", 5, 2⟩,
       ⟨"e", some "c", 5, 3⟩, ⟨"e", some "c", 5, 4⟩] emptyStore)).1 = false := by
  refine ⟨by decide, by decide, by decide, ?_⟩
  rw [(check_rate_limit_reject_leaves_count "e" "c" 5 30 _
    (by decide) (by decide)).1]

/-- C1: evidence for the code bug: five allowed requests at times 0, 1, 2, 3
and 50 collapse into one tuple stamped 50, so a sixth request at time 70 is
rejected although only one of the five (the one at 50) lies within the
trailing 60-second window — the limiter counts requests that fall outside the
window. -/
theorem rate_limiter_counts_stale_requests :
    runResults
        [⟨"e", some "c", 5, 0⟩, ⟨"e", some "c", 5, 1⟩, ⟨"e", some "c", 5, 2⟩,
         ⟨"e", some "c", 5, 3⟩, ⟨"e", some "c", 5, 50⟩, ⟨"e", some "c", 5, 70⟩]
        emptyStore = [true, true, true, true, true, false] ∧
    (runChecks
        [⟨"e", some "c", 5, 0⟩, ⟨"e", some "c", 5, 1⟩, ⟨"e", some "c", 5, 2⟩,
         ⟨"e", some "c", 5, 3⟩, ⟨"e", some "c", 5, 50⟩]
        emptyStore) (rlKey "e" "c") = [(50, 5)] ∧
    (([0, 1, 2, 3, 50] : List Int).filter fun t => decide ((70 : Int) - 60 < t)).length
      = 1 ∧
    (1 : ℤ) < 5 := by
  decide

/-- C10: starting from the empty store, every reachable per-key list holds at
most one (timestamp, count) tuple; and whenever an identified request is
allowed against a (at most single-tuple) key, the stored list afterwards is
exactly the one tuple stamped with the current time and carrying the pruned
count plus one — the tuple is overwritten, never appended to. -/
theorem rate_limit_single_entry_per_key :
    (∀ (calls : List RLCall) (k : String),
      ((runChecks calls emptyStore) k).length ≤ 1) ∧
    (∀ (e ip : String) (l : ℤ) (now : Int) (store : Store),
      ¬(ip = "") → (store (rlKey e ip)).length ≤ 1 →
      (check_rate_limit e (some ip) l now store).1 = true →
      (check_rate_limit e (some ip) l now store).2 (rlKey e ip) =
        [(now, sumCounts (pruneEntries now (store (rlKey e ip))) + 1)]) := by
  constructor
  · intro calls k
    exact runChecks_single_entry calls emptyStore (fun _ => Nat.le_refl 0 |>.trans (Nat.zero_le 1)) k
  · intro e ip l now store hip hlen hallow
    by_cases hc : l ≤ sumCounts (pruneEntries now (store (rlKey e ip)))
    · simp [check_rate_limit, if_neg hip, if_pos hc] at hallow
    · have hpl : (pruneEntries now (store (rlKey e ip))).length ≤ 1 :=
        le_trans (List.length_filter_le _ _) hlen
      cases hplv : pruneEntries now (store (rlKey e ip)) with
      | nil =>
        rw [hplv] at hc
        simp only [sumCounts, List.map_nil, List.sum_nil] at hc
        simp [check_rate_limit, if_neg hip, hplv, updateStore, sumCounts, hc]
      | cons x xs =>
        have hxs : xs = [] := by
          rw [hplv] at hpl
          simpa using hpl
        subst hxs
        rw [hplv] at hc
        simp only [sumCounts, List.map_cons, List.map_nil, List.sum_cons,
          List.sum_nil, add_zero] at hc
        simp [check_rate_limit, if_neg hip, hplv, updateStore, sumCounts, hc]

theorem rate_limit_single_entry_per_key_witness :
    ¬("c" = "") ∧
    ((updateStore emptyStore (rlKey "e" "c") [(0, 2)]) (rlKey "e" "c")).length ≤ 1 ∧
    (check_rate_limit "e" (some "c") 5 30
      (updateStore emptyStore (rlKey "e" "c") [(0, 2)])).1 = true ∧
    (check_rate_limit "e" (some "c") 5 30
      (updateStore emptyStore (rlKey "e" "c") [(0, 2)])).2 (rlKey "e" "c")
      = [(30, 3)] := by
  refine ⟨by decide, by decide, by decide, ?_⟩
  rw [rate_limit_single_entry_per_key.2 "e" "c" 5 30 _
    (by decide) (by decide) (by decide)]
  decide

/-- C3: after set(key, value, ttl) with positive ttl, an immediate get returns
the value and records a hit; once the clock passed the expiry (`now + ttl`),
get returns none, records a miss, evicts the entry (it neither appears in a
lookup nor counts toward current_size); and get never rewrites an entry, so a
read never refreshes an expiry. -/
theorem cache_ttl_correctness (α : Type) (st : CacheState α) (key : String)
    (v : α) (ttl now now' : Int) (httl : 0 < ttl) (hnow : now + ttl ≤ now') :
    (Cache.get key now (Cache.set key v ttl now st)).1 = some v ∧
    (Cache.get key now (Cache.set key v ttl now st)).2.hits = st.hits + 1 ∧
    (Cache.get key now' (Cache.set key v ttl now st)).1 = none ∧
    (Cache.get key now' (Cache.set key v ttl now st)).2.misses = st.misses + 1 ∧
    (Cache.get key now' (Cache.set key v ttl now st)).2.cache
      = eraseKey st.cache key ∧
    lookupEntry (Cache.get key now' (Cache.set key v ttl now st)).2.cache key
      = none ∧
    (get_stats (Cache.get key now' (Cache.set key v ttl now st)).2).current_size
      = (eraseKey st.cache key).length ∧
    (∀ (k : String) (n : Int) (s : CacheState α),
      (Cache.get k n s).2.cache = s.cache ∨
      (Cache.get k n s).2.cache = eraseKey s.cache k) := by
  have hlook : lookupEntry (Cache.set key v ttl now st).cache key
      = some (now + ttl, v) := by
    simpa [Cache.set] using lookupEntry_storeEntry_self st.cache key (now + ttl, v)
  have hlook' : lookupEntry (storeEntry st.cache key (now + ttl, v)) key
      = some (now + ttl, v) := lookupEntry_storeEntry_self st.cache key (now + ttl, v)
  have hfresh : ¬(now + ttl ≤ now) := by omega
  have hcache : (Cache.get key now' (Cache.set key v ttl now st)).2.cache
      = eraseKey st.cache key := by
    simp only [Cache.get, hlook, if_pos hnow]
    simpa [Cache.set] using eraseKey_storeEntry st.cache key (now + ttl, v)
  refine ⟨?_, ?_, ?_, ?_, hcache, ?_, ?_, ?_⟩
  · simp [Cache.get, hlook, hfresh]
  · simp [Cache.get, Cache.set, hlook', hfresh]
  · simp [Cache.get, hlook, hnow]
  · simp [Cache.get, Cache.set, hlook', hnow]
  · rw [hcache]
    exact lookupEntry_eraseKey_self st.cache key
  · simp [get_stats, hcache]
  · exact fun k n s => get_cache_cases k n s

theorem cache_ttl_correctness_witness :
    ((0 : Int) < 60 ∧ (0 : Int) + 60 ≤ 61) ∧
    (Cache.get "k" 0 (Cache.set "k" (7 : ℤ) 60 0 (fresh ℤ))).1 = some 7 ∧
    (Cache.get "k" 61 (Cache.set "k" (7 : ℤ) 60 0 (fresh ℤ))).1 = none := by
  have h := cache_ttl_correctness ℤ (fresh ℤ) "k" 7 60 0 61 (by decide) (by decide)
  exact ⟨⟨by decide, by decide⟩, h.1, h.2.2.1⟩

/-- C4: invalidate with a string removes exactly the entries whose key starts
with it, leaves every other key retrievable with unchanged lookup result,
adds the number of removed entries to the invalidations counter and touches
no other counter. -/
theorem cache_invalidate_matching_keys (α : Type) (st : CacheState α) (p : String) :
    (invalidate (some p) st).cache
      = st.cache.filter (fun e => !(startsWith e.1 p)) ∧
    (invalidate (some p) st).invalidations
      = st.invalidations + (st.cache.filter fun e => startsWith e.1 p).length ∧
    (invalidate (some p) st).hits = st.hits ∧
    (invalidate (some p) st).misses = st.misses ∧
    (invalidate (some p) st).sets = st.sets ∧
    (∀ k, startsWith k p = true →
      lookupEntry (invalidate (some p) st).cache k = none) ∧
    (∀ k, startsWith k p = false →
      lookupEntry (invalidate (some p) st).cache k = lookupEntry st.cache k) := by
  refine ⟨rfl, rfl, rfl, rfl, rfl, ?_, ?_⟩
  · intro k hk
    have hq : (fun s => !(startsWith s p)) k = false := by simp [hk]
    simpa [invalidate] using
      lookupEntry_filter_of_false (fun s => !(startsWith s p)) st.cache k hq
  · intro k hk
    have hq : (fun s => !(startsWith s p)) k = true := by simp [hk]
    simpa [invalidate] using
      lookupEntry_filter_of_true (fun s => !(startsWith s p)) st.cache k hq

theorem cache_invalidate_matching_keys_witness :
    startsWith "a:1" "a:" = true ∧
    startsWith "b:1" "a:" = false ∧
    lookupEntry (invalidate (some "a:")
      (⟨[("a:1", (60, 1)), ("a:2", (60, 2)), ("b:1", (60, 3))], 0, 0, 3, 0⟩
        : CacheState ℤ)).cache "a:1" = none ∧
    lookupEntry (invalidate (some "a:")
      (⟨[("a:1", (60, 1)), ("a:2", (60, 2)), ("b:1", (60, 3))], 0, 0, 3, 0⟩
        : CacheState ℤ)).cache "b:1" = some (60, 3) ∧
    (invalidate (some "a:")
      (⟨[("a:1", (60, 1)), ("a:2", (60, 2)), ("b:1", (60, 3))], 0, 0, 3, 0⟩
        : CacheState ℤ)).invalidations = 2 := by
  refine ⟨by decide, by decide, ?_, ?_, ?_⟩
  · exact (cache_invalidate_matching_keys ℤ _ "a:").2.2.2.2.2.1 "a:1" (by decide)
  · rw [(cache_invalidate_matching_keys ℤ _ "a:").2.2.2.2.2.2 "b:1" (by decide)]
    decide
  · rw [(cache_invalidate_matching_keys ℤ _ "a:").2.1]
    decide

/-- C5: over any scripted sequence of operations from a fresh cache, hits plus
misses equals the number of gets issued and equals total_requests; sets counts
the set calls; invalidations totals the entries removed across all invalidate
calls; and hit_rate is reported as 0 with no gets, else as
hits/(hits+misses)*100 rounded to two decimals. -/
theorem cache_stats_accounting (α : Type) (ops : List (Int × CacheOp α)) :
    (runOps ops (fresh α)).hits + (runOps ops (fresh α)).misses
      = countGets ops ∧
    (get_stats (runOps ops (fresh α))).total_requests
      = (runOps ops (fresh α)).hits + (runOps ops (fresh α)).misses ∧
    (runOps ops (fresh α)).sets = countSets ops ∧
    (runOps ops (fresh α)).invalidations = totalRemoved ops (fresh α) ∧
    (∀ st : CacheState α, (get_stats st).hit_rate =
      if st.hits + st.misses = 0 then 0
      else round2 ((st.hits : ℚ) / ((st.hits : ℚ) + (st.misses : ℚ)) * 100)) := by
  obtain ⟨h1, h2, h3⟩ := runOps_counters ops (fresh α)
  refine ⟨by simpa [fresh] using h1, rfl, by simpa [fresh] using h2,
    by simpa [fresh] using h3, ?_⟩
  intro st
  by_cases h : st.hits + st.misses = 0
  · simp [get_stats, h, round2]
  · have hpos : 0 < st.hits + st.misses := Nat.pos_of_ne_zero h
    simp only [get_stats, if_pos hpos, if_neg h]
    congr 1
    push_cast
    ring

/-- C6: a second set on the same key fully replaces the first: the stored
entry afterwards carries the second value with expiry `t2 + ttl2`, an
immediate get returns the second value, and (from a fresh cache) no reachable
state ever holds two entries for one key. -/
theorem cache_set_overwrite (α : Type) (st : CacheState α) (k : String)
    (v1 v2 : α) (ttl1 ttl2 t1 t2 : Int) (h : 0 < ttl2) :
    lookupEntry (Cache.set k v2 ttl2 t2 (Cache.set k v1 ttl1 t1 st)).cache k
      = some (t2 + ttl2, v2) ∧
    (Cache.get k t2 (Cache.set k v2 ttl2 t2 (Cache.set k v1 ttl1 t1 st))).1
      = some v2 ∧
    (∀ (ops : List (Int × CacheOp α)) (key : String),
      countKey (runOps ops (fresh α)).cache key ≤ 1) := by
  have hlook : lookupEntry
      (Cache.set k v2 ttl2 t2 (Cache.set k v1 ttl1 t1 st)).cache k
      = some (t2 + ttl2, v2) := by
    simpa [Cache.set] using
      lookupEntry_storeEntry_self (Cache.set k v1 ttl1 t1 st).cache k
        (t2 + ttl2, v2)
  have hfresh : ¬(t2 + ttl2 ≤ t2) := by omega
  refine ⟨hlook, ?_, ?_⟩
  · simp [Cache.get, hlook, hfresh]
  · intro ops key
    exact countKey_runOps_le_one ops (fresh α)
      (fun _ => by simp [fresh, countKey]) key

theorem cache_set_overwrite_witness :
    (0 : Int) < 60 ∧
    lookupEntry (Cache.set "k" (2 : ℤ) 60 5
      (Cache.set "k" (1 : ℤ) 30 0 (fresh ℤ))).cache "k" = some (5 + 60, 2) ∧
    (Cache.get "k" 5 (Cache.set "k" (2 : ℤ) 60 5
      (Cache.set "k" (1 : ℤ) 30 0 (fresh ℤ)))).1 = some 2 := by
  have h := cache_set_overwrite ℤ (fresh ℤ) "k" 1 2 30 60 0 5 (by decide)
  exact ⟨by decide, h.1, h.2.1⟩

/-- C8 counterexample: neither boundary rejects: set with ttl = -1 is
processed (the entry is stored already expired and the sets counter moves),
the following get is an ordinary miss, and check_rate_limit with limit = -1
returns the ordinary rate-reject value false — no precondition failure
exists anywhere in either operation. -/
theorem nonpositive_args_counterexample :
    (Cache.set "k" (0 : ℤ) (-1) 0 (fresh ℤ)).cache = [("k", (-1, 0))] ∧
    (Cache.set "k" (0 : ℤ) (-1) 0 (fresh ℤ)).sets = 1 ∧
    (Cache.get "k" 0 (Cache.set "k" (0 : ℤ) (-1) 0 (fresh ℤ))).1 = none ∧
    (check_rate_limit "e" (some "c") (-1) 0 emptyStore).1 = false := by
  decide

/-- C8 amended: a non-positive TTL is accepted and processed: the entry is
stored with `expires_at = now + ttl` and the sets counter incremented, and it
is already expired at the next read (ordinary miss). A non-positive limit is
accepted and processed: every identified request is rejected through the
ordinary false return (given non-negative recorded counts). No precondition
failure distinguishes these calls. -/
theorem nonpositive_args_processed (α : Type) (key : String) (v : α)
    (ttl now : Int) (st : CacheState α) (httl : ttl ≤ 0)
    (e ip : String) (l : ℤ) (now' : Int) (store : Store)
    (hip : ¬(ip = "")) (hl : l ≤ 0)
    (hpos : ∀ x ∈ store (rlKey e ip), 0 ≤ x.2) :
    (Cache.set key v ttl now st).sets = st.sets + 1 ∧
    lookupEntry (Cache.set key v ttl now st).cache key = some (now + ttl, v) ∧
    (Cache.get key now (Cache.set key v ttl now st)).1 = none ∧
    (check_rate_limit e (some ip) l now' store).1 = false := by
  have hlook : lookupEntry (Cache.set key v ttl now st).cache key
      = some (now + ttl, v) := by
    simpa [Cache.set] using lookupEntry_storeEntry_self st.cache key (now + ttl, v)
  refine ⟨rfl, hlook, ?_, ?_⟩
  · have hle : now + ttl ≤ now := by omega
    simp [Cache.get, hlook, hle]
  · have h0 : 0 ≤ sumCounts (pruneEntries now' (store (rlKey e ip))) := by
      apply List.sum_nonneg
      intro x hx
      simp only [List.mem_map] at hx
      obtain ⟨y, hy, rfl⟩ := hx
      exact hpos y (List.mem_of_mem_filter hy)
    have hcnt : l ≤ sumCounts (pruneEntries now' (store (rlKey e ip))) :=
      le_trans hl h0
    simp [check_rate_limit, hip, hcnt]

theorem nonpositive_args_processed_witness :
    ((-1 : Int) ≤ 0) ∧ ¬("c" = "") ∧ ((-1 : ℤ) ≤ 0) ∧
    ((Cache.set "k" (0 : ℤ) (-1) 0 (fresh ℤ)).sets = (fresh ℤ).sets + 1 ∧
     lookupEntry (Cache.set "k" (0 : ℤ) (-1) 0 (fresh ℤ)).cache "k"
       = some (0 + -1, 0) ∧
     (Cache.get "k" 0 (Cache.set "k" (0 : ℤ) (-1) 0 (fresh ℤ))).1 = none ∧
     (check_rate_limit "e" (some "c") (-1) 0 emptyStore).1 = false) := by
  refine ⟨by decide, by decide, by decide, ?_⟩
  exact nonpositive_args_processed ℤ "k" 0 (-1) 0 (fresh ℤ) (by decide)
    "e" "c" (-1) 0 emptyStore (by decide) (by decide)
    (by intro x hx; simp [emptyStore] at hx)

end NotBroke
